import Mathlib

/-!
Run-length codec of `main.cpp`.

A shallow embedding of the three functions of `src/main.cpp`
(`repeats`, `bufferCompression`, `bufferDecompression`) and theorems about them.

Conventions of the embedding.

* A buffer `(data_ptr, data_size)` is a `List Nat` whose length is `data_size`; a byte is a
  natural number below 256.
* Every access `data_ptr[i]` is checked against `data_size`: an access at an index that is
  not below `data_size` is undefined behaviour in the source and ends the run with a `Fault`.
* A `while` loop is a function that recurses on a fuel argument; running out of fuel is the
  fault `Fault.outOfFuel`, so a result `Except.ok _` always stands for a run of the source that
  left the loop through its guard.
* Indices and counters of type `int` are natural numbers. The counter `repeat` of
  `bufferDecompression`, which can grow beyond the size of the stream, is checked against
  `INT_MAX`: an addition that would exceed it is undefined behaviour in the source and ends the
  run with `Fault.intOverflow`. A `uint8_t` result is reduced modulo 256 where the source
  narrows an `int` (the return value of `repeats`).
* The scratch block `new_buffer` of `bufferDecompression` has the `NEW_BUFFER_SIZE` bytes
  that line 91 allocates. It is the list of the bytes written to it so far (`new_index` is its
  length), and a write at an index that is not below the capacity ends the run with
  `Fault.writeOutOfBounds`.
-/

/-- The marker bit of a run tag and of a continuation byte (`#define MASK 0x80`). -/
def MASK : Nat := 0x80

/-- The ways a run of the embedded code can go wrong. -/
inductive Fault where
  | outOfFuel
  | readOutOfBounds (index : Nat)
  | writeOutOfBounds (index : Nat)
  | intOverflow
  deriving DecidableEq

deriving instance DecidableEq for Except

/-- The read `data_ptr[index]`. -/
def readByte (data_ptr : List Nat) (index : Nat) : Except Fault Nat :=
  match data_ptr[index]? with
  | some b => .ok b
  | none => .error (.readOutOfBounds index)

/-- The write `data_ptr[index] = value`. -/
def writeByte (data_ptr : List Nat) (index value : Nat) : Except Fault (List Nat) :=
  if index < data_ptr.length then .ok (data_ptr.set index value)
  else .error (.writeOutOfBounds index)

/-- The `while` loop of `repeats` (lines 19-22); the second conjunct of the guard is only
evaluated when the first one holds. -/
def repeatsLoop (data_ptr : List Nat) (data_size : Nat) : Nat → Nat → Nat → Except Fault Nat
  | 0, _, _ => .error .outOfFuel
  | fuel + 1, start_index, rep =>
    if start_index < data_size - 1 then
      match readByte data_ptr start_index with
      | .error e => .error e
      | .ok a =>
        match readByte data_ptr (start_index + 1) with
        | .error e => .error e
        | .ok b =>
          if a = b then repeatsLoop data_ptr data_size fuel (start_index + 1) (rep + 1)
          else .ok rep
    else .ok rep

/-- The function `repeats` (lines 17-24): the `int` counter is returned as a `uint8_t`. -/
def repeats (data_ptr : List Nat) (data_size start_index : Nat) : Except Fault Nat :=
  match repeatsLoop data_ptr data_size (data_size + 1) start_index 1 with
  | .error e => .error e
  | .ok rep => .ok (rep % 256)

/-- The inner `while (repeat > 127)` loop of `bufferCompression` (lines 57-60); it returns
the buffer, the write index and the remaining count. -/
def continuationLoop : Nat → List Nat → Nat → Nat → Except Fault (List Nat × Nat × Nat)
  | 0, _, _, _ => .error .outOfFuel
  | fuel + 1, data_ptr, new_buffer_index, rep =>
    if rep > 127 then
      match writeByte data_ptr new_buffer_index 0xFF with
      | .error e => .error e
      | .ok data_ptr => continuationLoop fuel data_ptr (new_buffer_index + 1) (rep - 127)
    else .ok (data_ptr, new_buffer_index, rep)

/-- The outer `while` loop of `bufferCompression` (lines 46-66). -/
def compressionLoop (data_size : Nat) : Nat → List Nat → Nat → Nat → Except Fault (List Nat × Nat)
  | 0, _, _, _ => .error .outOfFuel
  | fuel + 1, data_ptr, new_buffer_index, old_buffer_index =>
    if old_buffer_index < data_size then
      match repeats data_ptr data_size old_buffer_index with
      | .error e => .error e
      | .ok rep =>
        if rep > 1 then
          match readByte data_ptr old_buffer_index with
          | .error e => .error e
          | .ok b =>
            match writeByte data_ptr new_buffer_index (b ||| MASK) with
            | .error e => .error e
            | .ok data_ptr =>
              match continuationLoop rep data_ptr (new_buffer_index + 1) rep with
              | .error e => .error e
              | .ok (data_ptr, new_buffer_index, rest) =>
                match writeByte data_ptr new_buffer_index rest with
                | .error e => .error e
                | .ok data_ptr =>
                  compressionLoop data_size fuel data_ptr (new_buffer_index + 1)
                    (old_buffer_index + rep)
        else
          match readByte data_ptr old_buffer_index with
          | .error e => .error e
          | .ok b =>
            match writeByte data_ptr new_buffer_index b with
            | .error e => .error e
            | .ok data_ptr =>
              compressionLoop data_size fuel data_ptr (new_buffer_index + 1)
                (old_buffer_index + 1)
    else .ok (data_ptr, new_buffer_index)

/-- The function `bufferCompression` (lines 42-69), with `data_size = data_ptr.length`: it
returns the buffer as the in-place run leaves it and the new size. -/
def bufferCompression (data_ptr : List Nat) : Except Fault (List Nat × Nat) :=
  compressionLoop data_ptr.length (data_ptr.length + 1) data_ptr 0 0

/-- The largest value of the type `int` (32 bits). -/
def INT_MAX : Nat := 2147483647

/-- The number of bytes of the block `new_buffer` that line 91 allocates,
`sizeof(data_ptr) / sizeof(data_ptr[0])`: the size of a pointer divided by the size of a
byte, which is 8 on a 64-bit platform, whatever `data_size` is. -/
def NEW_BUFFER_SIZE : Nat := 8

/-- The write `new_buffer[new_index++] = value` (lines 111 and 115) into a block of
`capacity` bytes, of which `new_buffer` lists the `new_index` bytes written so far. -/
def pushByte (capacity : Nat) (new_buffer : List Nat) (value : Nat) : Except Fault (List Nat) :=
  if new_buffer.length < capacity then .ok (new_buffer ++ [value])
  else .error (.writeOutOfBounds new_buffer.length)

/-- The inner `while` loop of `bufferDecompression` (lines 103-106); it returns the read
index and the count accumulated so far. -/
def lengthLoop (data_ptr : List Nat) : Nat → Nat → Nat → Except Fault (Nat × Nat)
  | 0, _, _ => .error .outOfFuel
  | fuel + 1, old_index, rep =>
    match readByte data_ptr old_index with
    | .error e => .error e
    | .ok b =>
      if MASK = b &&& MASK then
        if rep + 127 ≤ INT_MAX then lengthLoop data_ptr fuel (old_index + 1) (rep + 127)
        else .error .intOverflow
      else .ok (old_index, rep)

/-- The `for` loop of `bufferDecompression` (lines 110-111), counting `i` down to zero. -/
def fillLoop (capacity tmp : Nat) : Nat → List Nat → Except Fault (List Nat)
  | 0, new_buffer => .ok new_buffer
  | i + 1, new_buffer =>
    match pushByte capacity new_buffer tmp with
    | .error e => .error e
    | .ok new_buffer => fillLoop capacity tmp i new_buffer

/-- The outer `while` loop of `bufferDecompression` (lines 93-116), writing to a block
`new_buffer` of `capacity` bytes. -/
def decompressionLoop (data_ptr : List Nat) (data_size capacity : Nat) :
    Nat → Nat → List Nat → Except Fault (List Nat)
  | 0, _, _ => .error .outOfFuel
  | fuel + 1, old_index, new_buffer =>
    if old_index < data_size then
      match readByte data_ptr old_index with
      | .error e => .error e
      | .ok b =>
        if MASK = b &&& MASK then
          let tmp := b ^^^ MASK
          match lengthLoop data_ptr (data_size + 1) (old_index + 1) 0 with
          | .error e => .error e
          | .ok (old_index, rep) =>
            match readByte data_ptr old_index with
            | .error e => .error e
            | .ok t =>
              if rep + t ≤ INT_MAX then
                match fillLoop capacity tmp (rep + t) new_buffer with
                | .error e => .error e
                | .ok new_buffer =>
                  decompressionLoop data_ptr data_size capacity fuel (old_index + 1) new_buffer
              else .error .intOverflow
        else
          match pushByte capacity new_buffer b with
          | .error e => .error e
          | .ok new_buffer =>
            decompressionLoop data_ptr data_size capacity fuel (old_index + 1) new_buffer
    else .ok new_buffer

/-- The function `bufferDecompression` (lines 86-121), with `data_size = data_ptr.length`
and the block of line 91: it returns the bytes copied back to `data_ptr`; the returned size
is their number. -/
def bufferDecompression (data_ptr : List Nat) : Except Fault (List Nat) :=
  decompressionLoop data_ptr data_ptr.length NEW_BUFFER_SIZE (data_ptr.length + 1) 0 []

/-- The encoded stream a run of `bufferCompression` leaves: the first `new_size` bytes of
the buffer. -/
def encodedStream (r : List Nat × Nat) : List Nat := r.1.take r.2

/-- The composition of `main` (lines 142-146): compress, then decompress the compressed
prefix of the buffer. -/
def roundTrip (data_ptr : List Nat) : Except Fault (List Nat) :=
  match bufferCompression data_ptr with
  | .error e => .error e
  | .ok r => bufferDecompression (encodedStream r)

/-- The number of leading entries of a list that equal `v`. -/
def runLen (v : Nat) : List Nat → Nat
  | [] => 0
  | x :: xs => if x = v then runLen v xs + 1 else 0

/-- The stream `bufferCompression` writes, as a function of the bytes still to be read: at
a byte `v` followed by `runLen v xs` more copies the scanner reports
`(1 + runLen v xs) % 256`; a report above 1 gives a run record and skips that many bytes,
any other report copies `v` and skips one byte. -/
def encodeList : List Nat → List Nat
  | [] => []
  | v :: xs =>
    if 1 < (1 + runLen v xs) % 256 then
      (v ||| MASK) :: (List.replicate (((1 + runLen v xs) % 256 - 1) / 127) 0xFF ++
        ((1 + runLen v xs) % 256 - 127 * (((1 + runLen v xs) % 256 - 1) / 127)) ::
          encodeList (xs.drop ((1 + runLen v xs) % 256 - 1)))
    else v :: encodeList xs
termination_by l => l.length
decreasing_by
  all_goals simp_wf
  all_goals omega

/-- The buffer `data` with the block `block` written over it from index `n` on. -/
def overwrite (data : List Nat) (n : Nat) (block : List Nat) : List Nat :=
  data.take n ++ block ++ data.drop (n + block.length)

/-- The body of the outer loop of `bufferCompression` (lines 47-65): the buffer, the write
index and the read index after one iteration. -/
def compressionBody (data_size : Nat) (data_ptr : List Nat)
    (new_buffer_index old_buffer_index : Nat) : Except Fault (List Nat × Nat × Nat) :=
  match repeats data_ptr data_size old_buffer_index with
  | .error e => .error e
  | .ok rep =>
    if rep > 1 then
      match readByte data_ptr old_buffer_index with
      | .error e => .error e
      | .ok b =>
        match writeByte data_ptr new_buffer_index (b ||| MASK) with
        | .error e => .error e
        | .ok data_ptr =>
          match continuationLoop rep data_ptr (new_buffer_index + 1) rep with
          | .error e => .error e
          | .ok (data_ptr, new_buffer_index, rest) =>
            match writeByte data_ptr new_buffer_index rest with
            | .error e => .error e
            | .ok data_ptr => .ok (data_ptr, new_buffer_index + 1, old_buffer_index + rep)
    else
      match readByte data_ptr old_buffer_index with
      | .error e => .error e
      | .ok b =>
        match writeByte data_ptr new_buffer_index b with
        | .error e => .error e
        | .ok data_ptr => .ok (data_ptr, new_buffer_index + 1, old_buffer_index + 1)

/-- The state (buffer, write index, read index) of `bufferCompression` at the start of the
iteration number `k` of its outer loop, counted from 0, or at the exit of the loop when it is
left earlier. -/
def compressionIterate (data_size : Nat) :
    Nat → List Nat × Nat × Nat → Except Fault (List Nat × Nat × Nat)
  | 0, s => .ok s
  | k + 1, (data_ptr, new_buffer_index, old_buffer_index) =>
    if old_buffer_index < data_size then
      match compressionBody data_size data_ptr new_buffer_index old_buffer_index with
      | .error e => .error e
      | .ok s => compressionIterate data_size k s
    else .ok (data_ptr, new_buffer_index, old_buffer_index)

/-- The inner loop of lines 57-60 when the output is a fresh buffer: `0xFF` is appended to
`output`. -/
def continuationLoopCopy : Nat → List Nat → Nat → Except Fault (List Nat × Nat)
  | 0, _, _ => .error .outOfFuel
  | fuel + 1, output, rep =>
    if rep > 127 then continuationLoopCopy fuel (output ++ [0xFF]) (rep - 127)
    else .ok (output, rep)

/-- The outer loop of lines 46-66 when every read is made on `input`, which is never
written, and every write appends to the fresh buffer `output`. -/
def compressionLoopCopy (input : List Nat) (data_size : Nat) :
    Nat → List Nat → Nat → Except Fault (List Nat)
  | 0, _, _ => .error .outOfFuel
  | fuel + 1, output, old_buffer_index =>
    if old_buffer_index < data_size then
      match repeats input data_size old_buffer_index with
      | .error e => .error e
      | .ok rep =>
        if rep > 1 then
          match readByte input old_buffer_index with
          | .error e => .error e
          | .ok b =>
            match continuationLoopCopy rep (output ++ [b ||| MASK]) rep with
            | .error e => .error e
            | .ok (output, rest) =>
              compressionLoopCopy input data_size fuel (output ++ [rest])
                (old_buffer_index + rep)
        else
          match readByte input old_buffer_index with
          | .error e => .error e
          | .ok b =>
            compressionLoopCopy input data_size fuel (output ++ [b]) (old_buffer_index + 1)
    else .ok output

/-- The encoding algorithm of `bufferCompression` run out of place: it reads from an
unmodified copy of the input and writes to a fresh output buffer. -/
def bufferCompressionCopy (input : List Nat) : Except Fault (List Nat) :=
  compressionLoopCopy input input.length (input.length + 1) [] 0

/-- A record of the wire format: a literal byte, or a run record made of a tag, the bytes
between the tag and the terminator, and the terminator. -/
inductive Record where
  | literal (b : Nat)
  | run (tag : Nat) (continuation : List Nat) (terminator : Nat)

/-- A byte with the high bit set. -/
def highByte (b : Nat) : Bool := decide (0x80 ≤ b) && decide (b < 0x100)

/-- A complete record: a literal has the high bit clear; in a run record the tag and the
bytes after it have the high bit set and the terminator has the high bit clear. -/
def recordValid : Record → Bool
  | .literal b => decide (b < 0x80)
  | .run tag continuation terminator =>
    highByte tag && continuation.all highByte && decide (terminator < 0x80)

/-- The bytes of a record in the stream. -/
def recordBytes : Record → List Nat
  | .literal b => [b]
  | .run tag continuation terminator => tag :: (continuation ++ [terminator])

/-- The bytes a record stands for: the literal itself, or the tag with the high bit cleared
repeated 127 times for each byte between tag and terminator plus the terminator's value. -/
def recordExpand : Record → List Nat
  | .literal b => [b]
  | .run tag continuation terminator =>
    List.replicate (127 * continuation.length + terminator) (tag &&& 0x7F)

/-- The stream that is the concatenation of the given records. -/
def streamOf : List Record → List Nat
  | [] => []
  | r :: rs => recordBytes r ++ streamOf rs

/-- The concatenation of the bytes the given records stand for. -/
def expandAll : List Record → List Nat
  | [] => []
  | r :: rs => recordExpand r ++ expandAll rs

/-! ## Bytes and the marker bit -/

set_option maxRecDepth 100000 in
theorem mask_of_lt : ∀ b < 128, ¬ (MASK = b &&& MASK) := by decide

set_option maxRecDepth 100000 in
theorem mask_of_ge : ∀ b < 256, 128 ≤ b → MASK = b &&& MASK := by decide

set_option maxRecDepth 100000 in
theorem or_mask_of_lt : ∀ b < 128, b ||| MASK = b + 128 := by decide

set_option maxRecDepth 100000 in
theorem or_mask_xor_mask : ∀ b < 128, (b ||| MASK) ^^^ MASK = b := by decide

set_option maxRecDepth 100000 in
theorem mask_or_mask : ∀ b < 256, MASK = (b ||| MASK) &&& MASK := by decide

set_option maxRecDepth 100000 in
theorem or_mask_lt : ∀ b < 256, b ||| MASK < 256 := by decide

/-! ## Reads and writes -/

theorem readByte_of_drop {data : List Nat} {i v : Nat} {xs : List Nat}
    (h : data.drop i = v :: xs) : readByte data i = .ok v := by
  have : data[i]? = some v := by
    have := congrArg (fun l => l[0]?) h
    simpa using this
  simp [readByte, this]

theorem length_of_drop {data : List Nat} {i v : Nat} {xs : List Nat}
    (h : data.drop i = v :: xs) : data.length = i + 1 + xs.length := by
  have := congrArg List.length h
  simp at this
  omega

theorem drop_succ_of_drop {data : List Nat} {i v : Nat} {xs : List Nat}
    (h : data.drop i = v :: xs) : data.drop (i + 1) = xs := by
  have := congrArg (fun l => l.drop 1) h
  simpa using this

/-! ## The scanner -/

theorem repeatsLoop_of_drop (data : List Nat) (v : Nat) :
    ∀ (xs : List Nat) (fuel i rep : Nat), data.drop i = v :: xs → xs.length < fuel →
      repeatsLoop data data.length fuel i rep = .ok (rep + runLen v xs) := by
  intro xs
  induction xs with
  | nil =>
    intro fuel i rep h hf
    obtain ⟨fuel, rfl⟩ : ∃ k, fuel = k + 1 := ⟨fuel - 1, by simp at hf; omega⟩
    have hl := length_of_drop h
    simp at hl
    simp [repeatsLoop, runLen, hl]
  | cons x xs ih =>
    intro fuel i rep h hf
    obtain ⟨fuel, rfl⟩ : ∃ k, fuel = k + 1 := ⟨fuel - 1, by simp at hf; omega⟩
    have hl := length_of_drop h
    have h1 := drop_succ_of_drop h
    simp at hl hf
    have hg : i < data.length - 1 := by omega
    simp only [repeatsLoop, hg, if_true, readByte_of_drop h, readByte_of_drop h1, runLen]
    by_cases hx : x = v
    · subst hx
      simp only [if_true]
      rw [ih fuel (i + 1) (rep + 1) h1 (by omega)]
      congr 1
      omega
    · have : ¬ v = x := fun e => hx e.symm
      simp [hx, this]

theorem repeats_of_drop {data : List Nat} {i v : Nat} {xs : List Nat}
    (h : data.drop i = v :: xs) :
    repeats data data.length i = .ok ((1 + runLen v xs) % 256) := by
  have hl := length_of_drop h
  simp [repeats, repeatsLoop_of_drop data v xs (data.length + 1) i 1 h (by omega)]

/-! ## Writes in place -/

theorem overwrite_length {data : List Nat} {n : Nat} {block : List Nat}
    (h : n + block.length ≤ data.length) : (overwrite data n block).length = data.length := by
  simp [overwrite]
  omega

theorem set_append_cons_of_length (a : List Nat) (y v : Nat) (z : List Nat) (k : Nat)
    (hk : k = a.length) : (a ++ y :: z).set k v = a ++ v :: z := by
  subst hk
  rw [List.set_append_right _ _ (Nat.le_refl _)]
  simp

theorem writeByte_overwrite (data : List Nat) (n : Nat) (block : List Nat) (v : Nat)
    (h : n + block.length < data.length) :
    writeByte (overwrite data n block) (n + block.length) v
      = .ok (overwrite data n (block ++ [v])) := by
  have hl : (overwrite data n block).length = data.length := overwrite_length (by omega)
  have hd : data.drop (n + block.length)
      = data[n + block.length] :: data.drop (n + block.length + 1) :=
    List.drop_eq_getElem_cons h
  have ht : (data.take n ++ block).length = n + block.length := by
    simp
    omega
  simp only [writeByte, hl, h, if_true]
  congr 1
  unfold overwrite
  rw [hd, set_append_cons_of_length _ _ _ _ _ ht.symm]
  simp [Nat.add_assoc]

theorem overwrite_nil (data : List Nat) (n : Nat) : overwrite data n [] = data := by
  simp [overwrite]

theorem continuationLoop_overwrite (data : List Nat) (n : Nat) :
    ∀ (fuel rep : Nat) (block : List Nat), (rep - 1) / 127 < fuel →
      n + block.length + (rep - 1) / 127 ≤ data.length →
      continuationLoop fuel (overwrite data n block) (n + block.length) rep
        = .ok (overwrite data n (block ++ List.replicate ((rep - 1) / 127) 0xFF),
            n + block.length + (rep - 1) / 127, rep - 127 * ((rep - 1) / 127)) := by
  intro fuel
  induction fuel with
  | zero => intro rep block h; omega
  | succ fuel ih =>
    intro rep block hf hb
    by_cases hr : rep > 127
    · have hq : (rep - 1) / 127 = (rep - 127 - 1) / 127 + 1 := by omega
      have hw := writeByte_overwrite data n block 0xFF (by omega)
      simp only [continuationLoop, hr, if_true, hw]
      have := ih (rep - 127) (block ++ [0xFF]) (by omega) (by simp; omega)
      simp only [List.length_append, List.length_singleton, ← Nat.add_assoc] at this
      rw [this, hq]
      simp [List.replicate_succ, Nat.add_assoc]
      omega
    · have hq : (rep - 1) / 127 = 0 := by omega
      simp [continuationLoop, hr, hq]

/-! ## The encoder in place and on lists -/

theorem runLen_le (v : Nat) : ∀ xs : List Nat, runLen v xs ≤ xs.length
  | [] => by simp [runLen]
  | x :: xs => by
    have := runLen_le v xs
    simp only [runLen, List.length_cons]
    split <;> omega

theorem encodeList_nil : encodeList [] = [] := by
  rw [encodeList]

theorem encodeList_cons_run {v : Nat} {xs : List Nat} (h : 1 < (1 + runLen v xs) % 256) :
    encodeList (v :: xs)
      = (v ||| MASK) :: (List.replicate (((1 + runLen v xs) % 256 - 1) / 127) 0xFF ++
          ((1 + runLen v xs) % 256 - 127 * (((1 + runLen v xs) % 256 - 1) / 127)) ::
            encodeList (xs.drop ((1 + runLen v xs) % 256 - 1))) := by
  rw [encodeList, if_pos h]

theorem encodeList_cons_literal {v : Nat} {xs : List Nat} (h : ¬ 1 < (1 + runLen v xs) % 256) :
    encodeList (v :: xs) = v :: encodeList xs := by
  rw [encodeList, if_neg h]

theorem drop_overwrite {data : List Nat} {n k : Nat} {block : List Nat}
    (h : n + block.length ≤ k) (hl : n + block.length ≤ data.length) :
    (overwrite data n block).drop k = data.drop k := by
  have ht : (data.take n ++ block).length = n + block.length := by
    simp
    omega
  unfold overwrite
  rw [List.drop_append_eq_append_drop, ht, List.drop_of_length_le (by omega)]
  simp
  congr 1
  omega

theorem compressionLoop_overwrite (orig : List Nat) :
    ∀ (fuel old : Nat) (E : List Nat), E.length ≤ old → old ≤ orig.length →
      orig.length - old < fuel →
      compressionLoop orig.length fuel (overwrite orig 0 E) E.length old
        = .ok (overwrite orig 0 (E ++ encodeList (orig.drop old)),
            E.length + (encodeList (orig.drop old)).length) := by
  intro fuel
  induction fuel with
  | zero => intro old E _ _ h; omega
  | succ fuel ih =>
    intro old E hE hold hf
    have hcl : (overwrite orig 0 E).length = orig.length := overwrite_length (by omega)
    by_cases hlt : old < orig.length
    · have hd : orig.drop old = orig[old] :: orig.drop (old + 1) := List.drop_eq_getElem_cons hlt
      generalize orig[old] = v at hd
      generalize hxs : orig.drop (old + 1) = xs at hd
      have hxl : xs.length = orig.length - (old + 1) := by rw [← hxs]; simp
      have hcd : (overwrite orig 0 E).drop old = v :: xs := by
        rw [drop_overwrite (by omega) (by omega), hd]
      have hrep : repeats (overwrite orig 0 E) orig.length old
          = .ok ((1 + runLen v xs) % 256) := by
        have := repeats_of_drop hcd
        rwa [hcl] at this
      have hrl := runLen_le v xs
      have hmod : (1 + runLen v xs) % 256 ≤ 1 + runLen v xs := Nat.mod_le _ _
      have hmod2 : (1 + runLen v xs) % 256 < 256 := Nat.mod_lt _ (by decide)
      rw [hd]
      simp only [compressionLoop, hlt, if_true, hrep, readByte_of_drop hcd]
      generalize hr : (1 + runLen v xs) % 256 = r at hmod hmod2
      by_cases hr1 : r > 1
      · have hw1 := writeByte_overwrite orig 0 E (v ||| MASK) (by omega)
        have hc := continuationLoop_overwrite orig 0 r r (E ++ [v ||| MASK]) (by omega)
          (by simp; omega)
        have hw2 := writeByte_overwrite orig 0
          (E ++ [v ||| MASK] ++ List.replicate ((r - 1) / 127) 0xFF)
          (r - 127 * ((r - 1) / 127)) (by simp; omega)
        simp only [Nat.zero_add, List.length_append, List.length_singleton,
          List.length_replicate] at hw1 hc hw2
        simp only [hr1, if_true, hw1, hc, hw2]
        have := ih (old + r)
          (E ++ [v ||| MASK] ++ List.replicate ((r - 1) / 127) 0xFF ++ [r - 127 * ((r - 1) / 127)])
          (by simp; omega) (by omega) (by omega)
        simp only [List.length_append, List.length_singleton, List.length_replicate] at this
        rw [this]
        have hdrop : orig.drop (old + r) = xs.drop (r - 1) := by
          rw [← hxs, List.drop_drop]
          congr 1
          omega
        have hr1' : 1 < (1 + runLen v xs) % 256 := by omega
        rw [encodeList_cons_run hr1', hr, hdrop]
        simp [Nat.add_assoc]
        omega
      · have hw1 := writeByte_overwrite orig 0 E v (by omega)
        simp only [Nat.zero_add] at hw1
        simp only [hr1, if_false, hw1]
        have := ih (old + 1) (E ++ [v]) (by simp; omega) (by omega) (by omega)
        simp only [List.length_append, List.length_singleton] at this
        rw [this]
        have hr1' : ¬ 1 < (1 + runLen v xs) % 256 := by omega
        rw [encodeList_cons_literal hr1', hxs]
        simp [Nat.add_assoc]
        omega
    · have : orig.drop old = [] := List.drop_of_length_le (by omega)
      simp [compressionLoop, hlt, this, encodeList_nil]

theorem bufferCompression_eq (data : List Nat) :
    bufferCompression data
      = .ok (encodeList data ++ data.drop (encodeList data).length, (encodeList data).length) := by
  have := compressionLoop_overwrite data (data.length + 1) 0 [] (by simp) (by omega) (by omega)
  simpa [bufferCompression, overwrite] using this

theorem take_of_le_runLen (v : Nat) : ∀ (xs : List Nat) (k : Nat), k ≤ runLen v xs →
    xs.take k = List.replicate k v
  | _, 0, _ => by simp
  | [], k + 1, h => by simp [runLen] at h
  | x :: xs, k + 1, h => by
    simp only [runLen] at h
    by_cases hx : x = v
    · simp only [hx, if_true] at h
      simp [List.replicate_succ, hx, take_of_le_runLen v xs k (by omega)]
    · simp [hx] at h

set_option maxRecDepth 100000 in
theorem mask_ff : MASK = 0xFF &&& MASK := by decide

theorem drop_record {data : List Nat} {i g t : Nat} {hs rest : List Nat}
    (hd : data.drop i = g :: (hs ++ t :: rest)) : data.drop (i + hs.length + 2) = rest := by
  have h1 : (g :: (hs ++ t :: rest)).drop (hs.length + 2) = rest := by
    rw [show hs.length + 2 = (hs.length + 1) + 1 from rfl, List.drop_succ_cons,
      List.drop_append 1]
    simp
  rw [← h1, ← hd, List.drop_drop, Nat.add_assoc]

/-! ## Steps of the decoder -/

theorem pushByte_of_lt {capacity : Nat} {out : List Nat} (v : Nat) (h : out.length < capacity) :
    pushByte capacity out v = .ok (out ++ [v]) := by
  simp [pushByte, h]

theorem pushByte_of_ge {capacity : Nat} {out : List Nat} (v : Nat) (h : capacity ≤ out.length) :
    pushByte capacity out v = .error (.writeOutOfBounds out.length) := by
  have : ¬ out.length < capacity := by omega
  simp [pushByte, this]

theorem fillLoop_eq (capacity tmp : Nat) : ∀ (i : Nat) (out : List Nat),
    out.length + i ≤ capacity → fillLoop capacity tmp i out = .ok (out ++ List.replicate i tmp)
  | 0, out, _ => by simp [fillLoop]
  | i + 1, out, h => by
    rw [fillLoop, pushByte_of_lt tmp (by omega)]
    simp only
    rw [fillLoop_eq capacity tmp i _ (by simp; omega), List.replicate_succ]
    simp

theorem fillLoop_overflow (capacity tmp : Nat) : ∀ (i : Nat) (out : List Nat),
    out.length ≤ capacity → capacity < out.length + i →
    fillLoop capacity tmp i out = .error (.writeOutOfBounds capacity)
  | 0, out, h1, h2 => by omega
  | i + 1, out, h1, h2 => by
    by_cases hlt : out.length < capacity
    · rw [fillLoop, pushByte_of_lt tmp hlt]
      simp only
      exact fillLoop_overflow capacity tmp i _ (by simp; omega) (by simp; omega)
    · have he : out.length = capacity := by omega
      rw [fillLoop, pushByte_of_ge tmp (by omega), he]

theorem lengthLoop_of_drop (data : List Nat) (t : Nat) (rest : List Nat)
    (ht : ¬ (MASK = t &&& MASK)) :
    ∀ (hs : List Nat) (fuel i rep : Nat), (∀ h ∈ hs, MASK = h &&& MASK) →
      data.drop i = hs ++ t :: rest → hs.length < fuel → rep + 127 * hs.length ≤ INT_MAX →
      lengthLoop data fuel i rep = .ok (i + hs.length, rep + 127 * hs.length) := by
  intro hs
  induction hs with
  | nil =>
    intro fuel i rep _ hd hf _
    obtain ⟨fuel, rfl⟩ : ∃ k, fuel = k + 1 := ⟨fuel - 1, by simp at hf; omega⟩
    simp only [List.nil_append] at hd
    simp [lengthLoop, readByte_of_drop hd, ht]
  | cons h hs ih =>
    intro fuel i rep hh hd hf hint
    obtain ⟨fuel, rfl⟩ : ∃ k, fuel = k + 1 := ⟨fuel - 1, by simp at hf; omega⟩
    simp only [List.cons_append] at hd
    simp only [List.length_cons] at hint
    have hm : MASK = h &&& MASK := hh h (by simp)
    have h127 : rep + 127 ≤ INT_MAX := by omega
    simp only [lengthLoop, readByte_of_drop hd, hm.symm, if_true, h127]
    rw [ih fuel (i + 1) (rep + 127) (fun x hx => hh x (by simp [hx])) (drop_succ_of_drop hd)
      (by simp at hf; omega) (by omega)]
    simp
    omega

theorem lengthLoop_intOverflow (data : List Nat) (t : Nat) (rest : List Nat) :
    ∀ (hs : List Nat) (fuel i rep : Nat), (∀ h ∈ hs, MASK = h &&& MASK) →
      data.drop i = hs ++ t :: rest → hs.length < fuel → rep ≤ INT_MAX →
      INT_MAX < rep + 127 * hs.length →
      lengthLoop data fuel i rep = .error .intOverflow := by
  intro hs
  induction hs with
  | nil =>
    intro fuel i rep _ _ _ h1 h2
    simp at h2
    omega
  | cons h hs ih =>
    intro fuel i rep hh hd hf hrep hint
    obtain ⟨fuel, rfl⟩ : ∃ k, fuel = k + 1 := ⟨fuel - 1, by simp at hf; omega⟩
    simp only [List.cons_append] at hd
    simp only [List.length_cons] at hint
    have hm : MASK = h &&& MASK := hh h (by simp)
    by_cases h127 : rep + 127 ≤ INT_MAX
    · simp only [lengthLoop, readByte_of_drop hd, hm.symm, if_true, h127]
      exact ih fuel (i + 1) (rep + 127) (fun x hx => hh x (by simp [hx])) (drop_succ_of_drop hd)
        (by simp at hf; omega) h127 (by omega)
    · simp [lengthLoop, readByte_of_drop hd, hm.symm, h127]

theorem decompressionLoop_literal {data : List Nat} {capacity i b : Nat} {rest out : List Nat}
    (hd : data.drop i = b :: rest) (hb : ¬ (MASK = b &&& MASK)) (hcap : out.length < capacity)
    (fuel : Nat) :
    decompressionLoop data data.length capacity (fuel + 1) i out
      = decompressionLoop data data.length capacity fuel (i + 1) (out ++ [b]) := by
  have hl := length_of_drop hd
  have hlt : i < data.length := by omega
  simp [decompressionLoop, hlt, readByte_of_drop hd, hb, pushByte_of_lt b hcap]

theorem decompressionLoop_literal_overflow {data : List Nat} {capacity i b : Nat}
    {rest out : List Nat} (hd : data.drop i = b :: rest) (hb : ¬ (MASK = b &&& MASK))
    (hcap : capacity ≤ out.length) (fuel : Nat) :
    decompressionLoop data data.length capacity (fuel + 1) i out
      = .error (.writeOutOfBounds out.length) := by
  have hl := length_of_drop hd
  have hlt : i < data.length := by omega
  simp [decompressionLoop, hlt, readByte_of_drop hd, hb, pushByte_of_ge b hcap]

theorem drop_after_continuation {data : List Nat} {i g t : Nat} {hs rest : List Nat}
    (hd : data.drop i = g :: (hs ++ t :: rest)) : data.drop (i + 1 + hs.length) = t :: rest := by
  have := congrArg (fun l => l.drop hs.length) (drop_succ_of_drop hd)
  simpa [List.drop_drop, Nat.add_comm, Nat.add_left_comm] using this

theorem decompressionLoop_run {data : List Nat} {capacity i g t : Nat} {hs rest out : List Nat}
    (hd : data.drop i = g :: (hs ++ t :: rest)) (hg : MASK = g &&& MASK)
    (hh : ∀ h ∈ hs, MASK = h &&& MASK) (ht : ¬ (MASK = t &&& MASK))
    (hint : 127 * hs.length + t ≤ INT_MAX)
    (hcap : out.length + (127 * hs.length + t) ≤ capacity) (fuel : Nat) :
    decompressionLoop data data.length capacity (fuel + 1) i out
      = decompressionLoop data data.length capacity fuel (i + hs.length + 2)
          (out ++ List.replicate (127 * hs.length + t) (g ^^^ MASK)) := by
  have hl := length_of_drop hd
  simp at hl
  have hlt : i < data.length := by omega
  have hloop := lengthLoop_of_drop data t rest ht hs (data.length + 1) (i + 1) 0 hh
    (drop_succ_of_drop hd) (by omega) (by omega)
  have hd2 := drop_after_continuation hd
  have hint' : 0 + 127 * hs.length + t ≤ INT_MAX := by omega
  have hfill := fillLoop_eq capacity (g ^^^ MASK) (0 + 127 * hs.length + t) out (by omega)
  simp only [decompressionLoop, hlt, if_true, readByte_of_drop hd, hg.symm, hloop,
    readByte_of_drop hd2, hint', hfill]
  simp [Nat.add_assoc, Nat.add_comm, Nat.add_left_comm]

theorem decompressionLoop_run_overflow {data : List Nat} {capacity i g t : Nat}
    {hs rest out : List Nat}
    (hd : data.drop i = g :: (hs ++ t :: rest)) (hg : MASK = g &&& MASK)
    (hh : ∀ h ∈ hs, MASK = h &&& MASK) (ht : ¬ (MASK = t &&& MASK))
    (hint : 127 * hs.length + t ≤ INT_MAX) (hle : out.length ≤ capacity)
    (hcap : capacity < out.length + (127 * hs.length + t)) (fuel : Nat) :
    decompressionLoop data data.length capacity (fuel + 1) i out
      = .error (.writeOutOfBounds capacity) := by
  have hl := length_of_drop hd
  simp at hl
  have hlt : i < data.length := by omega
  have hloop := lengthLoop_of_drop data t rest ht hs (data.length + 1) (i + 1) 0 hh
    (drop_succ_of_drop hd) (by omega) (by omega)
  have hd2 := drop_after_continuation hd
  have hint' : 0 + 127 * hs.length + t ≤ INT_MAX := by omega
  have hfill := fillLoop_overflow capacity (g ^^^ MASK) (0 + 127 * hs.length + t) out hle
    (by omega)
  simp only [decompressionLoop, hlt, if_true, readByte_of_drop hd, hg.symm, hloop,
    readByte_of_drop hd2, hint', hfill]

theorem decompressionLoop_run_intOverflow {data : List Nat} {capacity i g t : Nat}
    {hs rest out : List Nat}
    (hd : data.drop i = g :: (hs ++ t :: rest)) (hg : MASK = g &&& MASK)
    (hh : ∀ h ∈ hs, MASK = h &&& MASK) (ht : ¬ (MASK = t &&& MASK))
    (hint : INT_MAX < 127 * hs.length + t) (fuel : Nat) :
    decompressionLoop data data.length capacity (fuel + 1) i out = .error .intOverflow := by
  have hl := length_of_drop hd
  simp at hl
  have hlt : i < data.length := by omega
  by_cases h1 : 127 * hs.length ≤ INT_MAX
  · have hloop := lengthLoop_of_drop data t rest ht hs (data.length + 1) (i + 1) 0 hh
      (drop_succ_of_drop hd) (by omega) (by omega)
    have hd2 := drop_after_continuation hd
    have hint' : ¬ 0 + 127 * hs.length + t ≤ INT_MAX := by omega
    simp only [decompressionLoop, hlt, if_true, readByte_of_drop hd, hg.symm, hloop,
      readByte_of_drop hd2, hint', if_false]
  · have hloop := lengthLoop_intOverflow data t rest hs (data.length + 1) (i + 1) 0 hh
      (drop_succ_of_drop hd) (by omega) (Nat.zero_le _) (by omega)
    simp only [decompressionLoop, hlt, if_true, readByte_of_drop hd, hg.symm, hloop]

theorem decompressionLoop_stop {data : List Nat} {capacity i : Nat} (h : data.length ≤ i)
    (fuel : Nat) (out : List Nat) :
    decompressionLoop data data.length capacity (fuel + 1) i out = .ok out := by
  have : ¬ i < data.length := by omega
  simp [decompressionLoop, this]

/-! ## Shapes of the encoded stream -/

theorem bufferCompression_stream (data : List Nat) :
    ∃ r, bufferCompression data = .ok r ∧ encodedStream r = encodeList data
      ∧ r.2 = (encodeList data).length :=
  ⟨_, bufferCompression_eq data, by simp [encodedStream], rfl⟩

theorem runLen_replicate (v : Nat) : ∀ n : Nat, runLen v (List.replicate n v) = n
  | 0 => by simp [runLen]
  | n + 1 => by simp [List.replicate_succ, runLen, runLen_replicate v n]

theorem encodeList_replicate (v N : Nat) (h2 : 2 ≤ N) (h255 : N ≤ 255) :
    encodeList (List.replicate N v)
      = (v ||| MASK) :: (List.replicate ((N - 1) / 127) 0xFF ++ [N - 127 * ((N - 1) / 127)]) := by
  obtain ⟨n, rfl⟩ : ∃ n, N = n + 1 := ⟨N - 1, by omega⟩
  have hr : (1 + runLen v (List.replicate n v)) % 256 = n + 1 := by
    rw [runLen_replicate, Nat.mod_eq_of_lt (by omega)]
    omega
  rw [List.replicate_succ, encodeList_cons_run (by rw [hr]; omega), hr]
  simp [encodeList_nil]

theorem encodeList_replicate_256 (v : Nat) :
    encodeList (List.replicate 256 v) = [v, v ||| MASK, 0xFF, 0xFF, 1] := by
  have hr : (1 + runLen v (List.replicate 255 v)) % 256 = 0 := by
    rw [runLen_replicate]
  rw [show List.replicate 256 v = v :: List.replicate 255 v from rfl,
    encodeList_cons_literal (by rw [hr]; omega), encodeList_replicate v 255 (by omega) (by omega)]
  rfl

theorem runLen_of_head_ne {v : Nat} {xs : List Nat} (h : xs.head? ≠ some v) :
    runLen v xs = 0 := by
  cases xs with
  | nil => rfl
  | cons x xs =>
    have : x ≠ v := fun e => h (by simp [e])
    simp [runLen, this]

theorem encodeList_of_chain : ∀ b : List Nat, List.Chain' (fun x y => x ≠ y) b →
    encodeList b = b
  | [], _ => encodeList_nil
  | v :: xs, h => by
    have hh : xs.head? ≠ some v := by
      cases xs with
      | nil => simp
      | cons x xs =>
        have := (List.chain'_cons.mp h).1
        simpa using fun e => this e.symm
    have hr : ¬ 1 < (1 + runLen v xs) % 256 := by
      rw [runLen_of_head_ne hh]
      decide
    rw [encodeList_cons_literal hr, encodeList_of_chain xs h.tail]

theorem runLen_append_of_not_last (p v : Nat) (post : List Nat) :
    ∀ ps : List Nat, (∀ q, p :: ps ≠ q ++ [v]) →
      runLen p (ps ++ v :: post) = runLen p ps
  | [], h => by
    have : v ≠ p := fun e => h [] (by simp [e])
    simp [runLen, this]
  | x :: ps, h => by
    by_cases hx : x = p
    · subst hx
      have := runLen_append_of_not_last x v post ps (fun q hq => h (x :: q) (by simp [hq]))
      simp [runLen, this]
    · simp [runLen, hx]

theorem encodeList_append_literal (v : Nat) (post : List Nat) (hpost : post.head? ≠ some v) :
    ∀ (n : Nat) (pre : List Nat), pre.length ≤ n → (∀ q, pre ≠ q ++ [v]) →
      encodeList (pre ++ v :: post) = encodeList pre ++ v :: encodeList post := by
  intro n
  induction n with
  | zero =>
    intro pre hl _
    obtain rfl : pre = [] := List.length_eq_zero.mp (by omega)
    have hr : ¬ 1 < (1 + runLen v post) % 256 := by
      rw [runLen_of_head_ne hpost]
      decide
    simp [encodeList_cons_literal hr, encodeList_nil]
  | succ n ih =>
    intro pre hl hlast
    cases pre with
    | nil =>
      have hr : ¬ 1 < (1 + runLen v post) % 256 := by
        rw [runLen_of_head_ne hpost]
        decide
      simp [encodeList_cons_literal hr, encodeList_nil]
    | cons p ps =>
      simp only [List.length_cons] at hl
      have hrun := runLen_append_of_not_last p v post ps hlast
      have hrl := runLen_le p ps
      have hmod : (1 + runLen p ps) % 256 ≤ 1 + runLen p ps := Nat.mod_le _ _
      by_cases hr : 1 < (1 + runLen p ps) % 256
      · rw [List.cons_append, encodeList_cons_run (by rw [hrun]; exact hr), hrun,
          encodeList_cons_run hr]
        generalize (1 + runLen p ps) % 256 = r at hr hmod
        rw [List.drop_append_of_le_length (by omega)]
        rw [ih (ps.drop (r - 1)) (by simp; omega)]
        · simp
        · intro q hq
          apply hlast (p :: ps.take (r - 1) ++ q)
          rw [List.append_assoc, ← hq]
          simp
      · rw [List.cons_append, encodeList_cons_literal (by rw [hrun]; exact hr),
          encodeList_cons_literal hr]
        rw [ih ps (by omega)]
        · simp
        · intro q hq
          exact hlast (p :: q) (by simp [hq])

/-! ## The scanner on runs -/

theorem runLen_eq_of_run (v : Nat) : ∀ (xs : List Nat) (m : Nat), m ≤ xs.length →
    (∀ k, k < m → xs[k]? = some v) → (m < xs.length → xs[m]? ≠ some v) → runLen v xs = m
  | [], m, hm, _, _ => by
    simp at hm
    simp [runLen, hm]
  | x :: xs, 0, _, _, hmax => by
    have : x ≠ v := by
      intro e
      exact hmax (by simp) (by simp [e])
    simp [runLen, this]
  | x :: xs, m + 1, hm, hrun, hmax => by
    have hx : x = v := by simpa using hrun 0 (by omega)
    have := runLen_eq_of_run v xs m (by simpa using hm)
      (fun k hk => by simpa using hrun (k + 1) (by omega))
      (fun h => by simpa using hmax (by simpa using h))
    simp [runLen, hx, this]

theorem repeats_eq_mod (data : List Nat) (i L : Nat) (hi : i < data.length) (hL : 1 ≤ L)
    (hbound : i + L ≤ data.length) (hrun : ∀ k, k < L → data[i + k]? = data[i]?)
    (hmax : i + L < data.length → data[i + L]? ≠ data[i]?) :
    repeats data data.length i = .ok (L % 256) := by
  have hd : data.drop i = data[i] :: data.drop (i + 1) := List.drop_eq_getElem_cons hi
  have hv : data[i]? = some data[i] := List.getElem?_eq_getElem hi
  rw [repeats_of_drop hd]
  have : runLen data[i] (data.drop (i + 1)) = L - 1 := by
    apply runLen_eq_of_run
    · simp; omega
    · intro k hk
      rw [List.getElem?_drop, ← hv, ← hrun (1 + k) (by omega)]
      congr 1
      omega
    · intro h
      simp at h
      rw [List.getElem?_drop, ← hv]
      have := hmax (by omega)
      rwa [show i + 1 + (L - 1) = i + L by omega]
  rw [this]
  congr 2
  omega

theorem repeats_beyond (data : List Nat) (i : Nat) (hi : data.length ≤ i + 1) :
    repeats data data.length i = .ok 1 := by
  have : ¬ i < data.length - 1 := by omega
  simp [repeats, repeatsLoop, this]

theorem repeats_ok (data : List Nat) (i : Nat) :
    ∃ r, repeats data data.length i = .ok r := by
  by_cases hi : i < data.length
  · exact ⟨_, repeats_of_drop (List.drop_eq_getElem_cons hi)⟩
  · exact ⟨1, repeats_beyond data i (by omega)⟩

/-! ## The body of the encoder loop -/

theorem compressionLoop_succ (data_size fuel : Nat) (buf : List Nat) (new old : Nat) :
    compressionLoop data_size (fuel + 1) buf new old
      = if old < data_size then
          match compressionBody data_size buf new old with
          | .error e => .error e
          | .ok s => compressionLoop data_size fuel s.1 s.2.1 s.2.2
        else .ok (buf, new) := by
  simp only [compressionLoop, compressionBody]
  repeat' split
  all_goals first
    | (simp_all; done)
    | (rename_i h; injection h with h; subst h; rfl)

theorem compressionBody_progress (data_size : Nat) (buf : List Nat) (new old : Nat)
    (s : List Nat × Nat × Nat) (h : compressionBody data_size buf new old = .ok s) :
    old + 1 ≤ s.2.2 := by
  simp only [compressionBody] at h
  repeat' split at h
  all_goals simp_all
  all_goals (subst h; simp; try omega)

theorem compressionBody_overwrite (buf : List Nat) (new old v : Nat) (xs : List Nat)
    (hno : new ≤ old) (hd : buf.drop old = v :: xs) :
    compressionBody buf.length buf new old
      = if 1 < (1 + runLen v xs) % 256 then
          .ok (overwrite buf new ((v ||| MASK) ::
              (List.replicate (((1 + runLen v xs) % 256 - 1) / 127) 0xFF
                ++ [(1 + runLen v xs) % 256 - 127 * (((1 + runLen v xs) % 256 - 1) / 127)])),
            new + (2 + ((1 + runLen v xs) % 256 - 1) / 127), old + (1 + runLen v xs) % 256)
        else .ok (overwrite buf new [v], new + 1, old + 1) := by
  have hl := length_of_drop hd
  have hrl := runLen_le v xs
  have hmod : (1 + runLen v xs) % 256 ≤ 1 + runLen v xs := Nat.mod_le _ _
  have hmod2 : (1 + runLen v xs) % 256 < 256 := Nat.mod_lt _ (by decide)
  simp only [compressionBody, repeats_of_drop hd, readByte_of_drop hd]
  generalize (1 + runLen v xs) % 256 = r at hmod hmod2
  by_cases hr1 : r > 1
  · have hw1 := writeByte_overwrite buf new [] (v ||| MASK) (by simp; omega)
    have hc := continuationLoop_overwrite buf new r r [v ||| MASK] (by omega) (by simp; omega)
    have hw2 := writeByte_overwrite buf new
      ([v ||| MASK] ++ List.replicate ((r - 1) / 127) 0xFF)
      (r - 127 * ((r - 1) / 127)) (by simp; omega)
    simp only [overwrite_nil, List.length_nil, Nat.add_zero, List.length_append,
      List.length_singleton, List.length_replicate, List.nil_append, ← Nat.add_assoc]
      at hw1 hc hw2
    have hr1' : 1 < r := hr1
    simp only [hr1, hr1', if_true, hw1, hc, hw2]
    simp [Nat.add_assoc, Nat.add_comm, Nat.add_left_comm]
    omega
  · have hw1 := writeByte_overwrite buf new [] v (by simp; omega)
    simp only [overwrite_nil, List.length_nil, Nat.add_zero, List.nil_append] at hw1
    have hr1' : ¬ 1 < r := hr1
    simp only [hr1, hr1', if_false, hw1]

theorem compressionBody_invariant (buf : List Nat) (new old : Nat) (hno : new ≤ old)
    (hold : old < buf.length) :
    ∃ s, compressionBody buf.length buf new old = .ok s ∧ s.1.length = buf.length
      ∧ new < s.2.1 ∧ old < s.2.2 ∧ s.2.1 ≤ s.2.2 ∧ s.2.2 ≤ buf.length
      ∧ s.1.drop s.2.1 = buf.drop s.2.1 ∧ s.1.take new = buf.take new := by
  have hd : buf.drop old = buf[old] :: buf.drop (old + 1) := List.drop_eq_getElem_cons hold
  generalize buf[old] = v at hd
  generalize buf.drop (old + 1) = xs at hd
  have hl := length_of_drop hd
  have hrl := runLen_le v xs
  have hmod : (1 + runLen v xs) % 256 ≤ 1 + runLen v xs := Nat.mod_le _ _
  have hmod2 : (1 + runLen v xs) % 256 < 256 := Nat.mod_lt _ (by decide)
  have htake : ∀ block : List Nat, (overwrite buf new block).take new = buf.take new := by
    intro block
    have : (buf.take new).length = new := by simp; omega
    unfold overwrite
    rw [List.append_assoc, List.take_append_of_le_length (by omega), List.take_of_length_le (by omega)]
  rw [compressionBody_overwrite buf new old v xs hno hd]
  generalize (1 + runLen v xs) % 256 = r at hmod hmod2
  by_cases hr : 1 < r
  · simp only [hr, if_true]
    refine ⟨_, rfl, ?_, ?_, ?_, ?_, ?_, ?_, htake _⟩
    · exact overwrite_length (by simp; omega)
    · simp only; omega
    · simp only; omega
    · simp only; omega
    · simp only; omega
    · exact drop_overwrite (by simp; omega) (by simp; omega)
  · simp only [hr, if_false]
    refine ⟨_, rfl, ?_, ?_, ?_, ?_, ?_, ?_, htake _⟩
    · exact overwrite_length (by simp; omega)
    · simp only; omega
    · simp only; omega
    · simp only; omega
    · simp only; omega
    · exact drop_overwrite (by simp) (by simp; omega)

theorem compressionIterate_invariant (data : List Nat) :
    ∀ (k : Nat) (buf : List Nat) (new old : Nat), buf.length = data.length → new ≤ old →
      old ≤ data.length → buf.drop old = data.drop old →
      ∃ s, compressionIterate data.length k (buf, new, old) = .ok s
        ∧ s.1.length = data.length ∧ s.2.1 ≤ s.2.2 ∧ s.2.2 ≤ data.length
        ∧ s.1.drop s.2.2 = data.drop s.2.2 := by
  intro k
  induction k with
  | zero =>
    intro buf new old hlen hno hold hdrop
    exact ⟨_, rfl, hlen, hno, hold, hdrop⟩
  | succ k ih =>
    intro buf new old hlen hno hold hdrop
    by_cases hlt : old < data.length
    · obtain ⟨s, hs, hslen, _, hprog, hle, hbound, hsdrop, _⟩ :=
        compressionBody_invariant buf new old hno (by omega)
      rw [hlen] at hs hslen hbound
      obtain ⟨b', n', o'⟩ := s
      simp only at hslen hprog hle hbound hsdrop
      have hdrop' : b'.drop o' = data.drop o' := by
        have h1 : b'.drop o' = buf.drop o' := by
          have := congrArg (fun l => l.drop (o' - n')) hsdrop
          simp only [List.drop_drop] at this
          rwa [show n' + (o' - n') = o' by omega] at this
        have h2 : buf.drop o' = data.drop o' := by
          have := congrArg (fun l => l.drop (o' - old)) hdrop
          simp only [List.drop_drop] at this
          rwa [show old + (o' - old) = o' by omega] at this
        rw [h1, h2]
      simp only [compressionIterate, hlt, if_true, hs]
      exact ih b' n' o' hslen hle hbound hdrop'
    · exact ⟨(buf, new, old), by simp [compressionIterate, hlt], hlen, hno, hold, hdrop⟩

theorem continuationLoopCopy_eq : ∀ (fuel : Nat) (output : List Nat) (rep : Nat),
    (rep - 1) / 127 < fuel →
    continuationLoopCopy fuel output rep
      = .ok (output ++ List.replicate ((rep - 1) / 127) 0xFF, rep - 127 * ((rep - 1) / 127)) := by
  intro fuel
  induction fuel with
  | zero => intro output rep h; omega
  | succ fuel ih =>
    intro output rep hf
    by_cases hr : rep > 127
    · have hq : (rep - 1) / 127 = (rep - 127 - 1) / 127 + 1 := by omega
      simp only [continuationLoopCopy, hr, if_true]
      rw [ih _ _ (by omega), hq]
      simp [List.replicate_succ]
      omega
    · have hq : (rep - 1) / 127 = 0 := by omega
      simp [continuationLoopCopy, hr, hq]

theorem compressionLoopCopy_eq (input : List Nat) :
    ∀ (fuel old : Nat) (output : List Nat), old ≤ input.length → input.length - old < fuel →
      compressionLoopCopy input input.length fuel output old
        = .ok (output ++ encodeList (input.drop old)) := by
  intro fuel
  induction fuel with
  | zero => intro old output _ h; omega
  | succ fuel ih =>
    intro old output hold hf
    by_cases hlt : old < input.length
    · have hd : input.drop old = input[old] :: input.drop (old + 1) :=
        List.drop_eq_getElem_cons hlt
      generalize input[old] = v at hd
      generalize hxs : input.drop (old + 1) = xs at hd
      have hxl : xs.length = input.length - (old + 1) := by rw [← hxs]; simp
      have hrl := runLen_le v xs
      have hmod : (1 + runLen v xs) % 256 ≤ 1 + runLen v xs := Nat.mod_le _ _
      have hmod2 : (1 + runLen v xs) % 256 < 256 := Nat.mod_lt _ (by decide)
      rw [hd]
      simp only [compressionLoopCopy, hlt, if_true, repeats_of_drop hd, readByte_of_drop hd]
      by_cases hr : 1 < (1 + runLen v xs) % 256
      · rw [encodeList_cons_run hr]
        generalize (1 + runLen v xs) % 256 = r at hr hmod hmod2
        have hr' : r > 1 := hr
        simp only [hr', if_true, continuationLoopCopy_eq r _ r (by omega)]
        rw [ih (old + r) _ (by omega) (by omega)]
        have hdrop : input.drop (old + r) = xs.drop (r - 1) := by
          rw [← hxs, List.drop_drop]
          congr 1
          omega
        rw [hdrop]
        simp
      · rw [encodeList_cons_literal hr]
        generalize (1 + runLen v xs) % 256 = r at hr hmod hmod2
        have hr' : ¬ r > 1 := hr
        simp only [hr', if_false]
        rw [ih (old + 1) _ (by omega) (by omega), hxs]
        simp
    · have : input.drop old = [] := List.drop_of_length_le (by omega)
      simp [compressionLoopCopy, hlt, this, encodeList_nil]

theorem bufferCompressionCopy_eq (input : List Nat) :
    bufferCompressionCopy input = .ok (encodeList input) := by
  have := compressionLoopCopy_eq input (input.length + 1) 0 [] (by omega) (by omega)
  simpa [bufferCompressionCopy] using this

theorem encodeList_length_le : ∀ (n : Nat) (l : List Nat), l.length ≤ n →
    (encodeList l).length ≤ l.length := by
  intro n
  induction n with
  | zero =>
    intro l hl
    obtain rfl : l = [] := List.length_eq_zero.mp (by omega)
    simp [encodeList_nil]
  | succ n ih =>
    intro l hl
    cases l with
    | nil => simp [encodeList_nil]
    | cons v xs =>
      simp only [List.length_cons] at hl
      have hrl := runLen_le v xs
      have hmod : (1 + runLen v xs) % 256 ≤ 1 + runLen v xs := Nat.mod_le _ _
      have hmod2 : (1 + runLen v xs) % 256 < 256 := Nat.mod_lt _ (by decide)
      by_cases hr : 1 < (1 + runLen v xs) % 256
      · rw [encodeList_cons_run hr]
        generalize (1 + runLen v xs) % 256 = r at hr hmod hmod2
        have := ih (xs.drop (r - 1)) (by simp; omega)
        simp at this ⊢
        omega
      · rw [encodeList_cons_literal hr]
        have := ih xs (by omega)
        simp
        omega

set_option maxRecDepth 100000 in
theorem xor_mask_of_ge : ∀ g < 256, 128 ≤ g → g ^^^ MASK = g &&& 0x7F := by decide

theorem mask_of_highByte {b : Nat} (h : highByte b = true) : MASK = b &&& MASK := by
  simp [highByte] at h
  exact mask_of_ge b h.2 h.1

theorem xor_mask_of_highByte {b : Nat} (h : highByte b = true) : b ^^^ MASK = b &&& 0x7F := by
  simp [highByte] at h
  exact xor_mask_of_ge b h.2 h.1

theorem length_le_streamOf : ∀ rs : List Record, rs.length ≤ (streamOf rs).length
  | [] => by simp [streamOf]
  | r :: rs => by
    have := length_le_streamOf rs
    cases r <;> simp [streamOf, recordBytes] <;> omega

/-! ## More on the loops -/

theorem run_bounds (data : List Nat) (i L : Nat) (hi : i < data.length)
    (hrun : ∀ k, k < L → data[i + k]? = data[i]?)
    (hmax : i + L < data.length → data[i + L]? ≠ data[i]?) :
    1 ≤ L ∧ i + L ≤ data.length := by
  have hL : 1 ≤ L := by
    by_contra h
    have h0 : L = 0 := by omega
    subst h0
    exact hmax (by omega) rfl
  refine ⟨hL, ?_⟩
  have h := hrun (L - 1) (by omega)
  rw [List.getElem?_eq_getElem hi] at h
  have := (List.getElem?_eq_some_iff.mp h).1
  omega

theorem repeatsLoop_no_read_fault (data : List Nat) :
    ∀ (fuel i rep j : Nat),
      repeatsLoop data data.length fuel i rep ≠ .error (.readOutOfBounds j) := by
  intro fuel
  induction fuel with
  | zero => intro i rep j; simp [repeatsLoop]
  | succ fuel ih =>
    intro i rep j
    by_cases hg : i < data.length - 1
    · have h0 : readByte data i = .ok data[i] :=
        readByte_of_drop (List.drop_eq_getElem_cons (by omega))
      have h1 : readByte data (i + 1) = .ok data[i + 1] :=
        readByte_of_drop (List.drop_eq_getElem_cons (by omega))
      simp only [repeatsLoop, hg, if_true, h0, h1]
      split
      · exact ih _ _ _
      · simp
    · simp [repeatsLoop, hg]

theorem overwrite_singleton (data : List Nat) (n v : Nat) (h : n < data.length) :
    overwrite data n [v] = data.set n v := by
  rw [List.set_eq_take_append_cons_drop, if_pos h]
  simp [overwrite]

theorem compressionLoop_iterate (data_size : Nat) :
    ∀ (k fuel : Nat) (s : List Nat × Nat × Nat),
      compressionLoop data_size (fuel + 1 + k) s.1 s.2.1 s.2.2
        = match compressionIterate data_size k s with
          | .error e => .error e
          | .ok s' => compressionLoop data_size (fuel + 1) s'.1 s'.2.1 s'.2.2 := by
  intro k
  induction k with
  | zero => intro fuel s; simp [compressionIterate]
  | succ k ih =>
    intro fuel s
    obtain ⟨buf, new, old⟩ := s
    rw [← Nat.add_assoc, compressionLoop_succ]
    by_cases hlt : old < data_size
    · simp only [hlt, if_true, compressionIterate]
      cases hb : compressionBody data_size buf new old with
      | error e => simp
      | ok s' => simpa using ih fuel s'
    · simp only [hlt, if_false, compressionIterate]
      simp [compressionLoop, hlt]

/-! ## Decoding into the scratch block -/

/-- Decoding the encoding of a list of bytes below `0x80` into a block of `capacity` bytes:
the list is returned when it fits, and otherwise a byte is written at index `capacity`. -/
theorem decompressionLoop_encodeList (capacity : Nat) :
    ∀ (n : Nat) (l : List Nat), l.length ≤ n → (∀ x ∈ l, x < 128) →
      ∀ (data : List Nat) (i fuel : Nat) (out : List Nat), data.drop i = encodeList l →
        (encodeList l).length < fuel → out.length ≤ capacity →
        decompressionLoop data data.length capacity fuel i out
          = if out.length + l.length ≤ capacity then .ok (out ++ l)
            else .error (.writeOutOfBounds capacity) := by
  intro n
  induction n with
  | zero =>
    intro l hl _ data i fuel out hd hf hcap
    obtain rfl : l = [] := List.length_eq_zero.mp (by omega)
    obtain ⟨fuel, rfl⟩ : ∃ k, fuel = k + 1 := ⟨fuel - 1, by omega⟩
    rw [encodeList_nil] at hd
    have : data.length ≤ i := by
      have := congrArg List.length hd
      simp at this
      omega
    simp [decompressionLoop_stop this, hcap]
  | succ n ih =>
    intro l hl hlow data i fuel out hd hf hcap
    obtain ⟨fuel, rfl⟩ : ∃ k, fuel = k + 1 := ⟨fuel - 1, by omega⟩
    cases l with
    | nil =>
      rw [encodeList_nil] at hd
      have : data.length ≤ i := by
        have := congrArg List.length hd
        simp at this
        omega
      simp [decompressionLoop_stop this, hcap]
    | cons v xs =>
      have hv : v < 128 := hlow v (by simp)
      have hxs : ∀ x ∈ xs, x < 128 := fun x hx => hlow x (by simp [hx])
      simp only [List.length_cons] at hl
      by_cases hr : 1 < (1 + runLen v xs) % 256
      · rw [encodeList_cons_run hr] at hd hf
        have hrl := runLen_le v xs
        have hmod : (1 + runLen v xs) % 256 ≤ 1 + runLen v xs := Nat.mod_le _ _
        have hmod2 : (1 + runLen v xs) % 256 < 256 := Nat.mod_lt _ (by decide)
        generalize (1 + runLen v xs) % 256 = r at hd hf hr hmod hmod2
        have ht : ¬ (MASK = (r - 127 * ((r - 1) / 127)) &&& MASK) :=
          mask_of_lt _ (by omega)
        have hh : ∀ h ∈ List.replicate ((r - 1) / 127) 0xFF, MASK = h &&& MASK := by
          intro h hm
          rw [List.eq_of_mem_replicate hm]
          exact mask_ff
        have hcount : 127 * (List.replicate ((r - 1) / 127) 0xFF).length
            + (r - 127 * ((r - 1) / 127)) = (r - 1) + 1 := by
          simp
          omega
        have hint : 127 * (List.replicate ((r - 1) / 127) 0xFF).length
            + (r - 127 * ((r - 1) / 127)) ≤ INT_MAX := by
          rw [hcount]
          simp only [INT_MAX]
          omega
        by_cases hfit : out.length + ((r - 1) + 1) ≤ capacity
        · rw [decompressionLoop_run hd (mask_or_mask v (by omega)) hh ht hint
            (by rw [hcount]; exact hfit)]
          have hd' := drop_record hd
          rw [ih (xs.drop (r - 1)) (by simp; omega)
            (fun x hx => hxs x (List.mem_of_mem_drop hx))
            data _ fuel _ hd' (by simp at hf; omega) (by simp [hcount]; omega)]
          rw [hcount, or_mask_xor_mask v hv, List.replicate_succ,
            ← take_of_le_runLen v xs (r - 1) (by omega)]
          have e1 : (out ++ v :: List.take (r - 1) xs).length + (List.drop (r - 1) xs).length
              = out.length + (xs.length + 1) := by
            simp
            omega
          rw [e1]
          simp
        · rw [decompressionLoop_run_overflow hd (mask_or_mask v (by omega)) hh ht hint hcap
            (by rw [hcount]; omega)]
          have : ¬ out.length + (xs.length + 1) ≤ capacity := by omega
          simp [this]
      · rw [encodeList_cons_literal hr] at hd hf
        by_cases hfit : out.length < capacity
        · rw [decompressionLoop_literal hd (mask_of_lt v hv) hfit]
          rw [ih xs (by omega) hxs data (i + 1) fuel _ (drop_succ_of_drop hd)
            (by simp at hf; omega) (by simp; omega)]
          have e1 : (out ++ [v]).length + xs.length = out.length + (xs.length + 1) := by
            simp
            omega
          rw [e1]
          simp
        · have he : out.length = capacity := by omega
          rw [decompressionLoop_literal_overflow hd (mask_of_lt v hv) (by omega), he]
          have : ¬ capacity + (xs.length + 1) ≤ capacity := by omega
          simp [this]

theorem bufferDecompression_encodeList (l : List Nat) (hlow : ∀ x ∈ l, x < 128) :
    bufferDecompression (encodeList l)
      = if l.length ≤ NEW_BUFFER_SIZE then .ok l
        else .error (.writeOutOfBounds NEW_BUFFER_SIZE) := by
  have := decompressionLoop_encodeList NEW_BUFFER_SIZE l.length l (Nat.le_refl _) hlow
    (encodeList l) 0 ((encodeList l).length + 1) [] (by simp) (by omega) (by simp)
  simpa [bufferDecompression] using this

/-- The round trip of a buffer of bytes below `0x80` returns the buffer when it has at most
`NEW_BUFFER_SIZE` bytes, and otherwise ends in a write past the end of `new_buffer`. -/
theorem roundTrip_low_bytes_cases (b : List Nat) (h : ∀ x ∈ b, x < 0x80) :
    roundTrip b = if b.length ≤ NEW_BUFFER_SIZE then .ok b
      else .error (.writeOutOfBounds NEW_BUFFER_SIZE) := by
  obtain ⟨r, hr, hs, _⟩ := bufferCompression_stream b
  simp only [roundTrip, hr, hs]
  exact bufferDecompression_encodeList b h

/-- Decoding a concatenation of complete records into a block of `capacity` bytes: the
records are expanded when the expansion fits; otherwise the run ends in a write at index
`capacity` or in an overflow of the counter `repeat`. No other fault occurs. -/
theorem decompressionLoop_records (capacity : Nat) :
    ∀ (rs : List Record), (∀ r ∈ rs, recordValid r = true) →
      ∀ (data : List Nat) (i fuel : Nat) (out rest : List Nat),
        data.drop i = streamOf rs ++ rest → out.length ≤ capacity →
        (out.length + (expandAll rs).length ≤ capacity
          ∧ decompressionLoop data data.length capacity (fuel + rs.length) i out
            = decompressionLoop data data.length capacity fuel (i + (streamOf rs).length)
                (out ++ expandAll rs))
        ∨ (capacity < out.length + (expandAll rs).length
          ∧ decompressionLoop data data.length capacity (fuel + rs.length) i out
            = .error (.writeOutOfBounds capacity))
        ∨ (INT_MAX < (expandAll rs).length
          ∧ decompressionLoop data data.length capacity (fuel + rs.length) i out
            = .error .intOverflow) := by
  intro rs
  induction rs with
  | nil =>
    intro _ data i fuel out rest _ hcap
    left
    simp [streamOf, expandAll, hcap]
  | cons r rs ih =>
    intro hv data i fuel out rest hd hcap
    have hr : recordValid r = true := hv r (by simp)
    have hrs : ∀ r ∈ rs, recordValid r = true := fun x hx => hv x (by simp [hx])
    cases r with
    | literal b =>
      simp only [recordValid, decide_eq_true_eq] at hr
      simp only [streamOf, recordBytes, List.singleton_append, List.cons_append] at hd
      have e1 : i + 1 + (streamOf rs).length
          = i + (streamOf (Record.literal b :: rs)).length := by
        simp [streamOf, recordBytes]
        omega
      have e2 : out ++ [b] ++ expandAll rs = out ++ expandAll (Record.literal b :: rs) := by
        simp [expandAll, recordExpand]
      have e3 : (expandAll (Record.literal b :: rs)).length = 1 + (expandAll rs).length := by
        simp [expandAll, recordExpand]
        omega
      rw [List.length_cons, ← Nat.add_assoc, e3]
      by_cases hfit : out.length < capacity
      · rw [decompressionLoop_literal hd (mask_of_lt b hr) hfit, ← e1, ← e2]
        have := ih hrs data (i + 1) fuel (out ++ [b]) rest (drop_succ_of_drop hd)
          (by simp; omega)
        simp only [List.length_append, List.length_singleton] at this
        rcases this with ⟨h1, h2⟩ | ⟨h1, h2⟩ | ⟨h1, h2⟩
        · exact Or.inl ⟨by omega, h2⟩
        · exact Or.inr (Or.inl ⟨by omega, h2⟩)
        · exact Or.inr (Or.inr ⟨by omega, h2⟩)
      · have he : out.length = capacity := by omega
        right
        left
        refine ⟨by omega, ?_⟩
        rw [decompressionLoop_literal_overflow hd (mask_of_lt b hr) (by omega), he]
    | run g hs t =>
      simp only [recordValid, Bool.and_eq_true, decide_eq_true_eq, List.all_eq_true] at hr
      obtain ⟨⟨hg, hhs⟩, ht⟩ := hr
      have hd' : data.drop i = g :: (hs ++ t :: (streamOf rs ++ rest)) := by
        rw [hd]
        simp [streamOf, recordBytes]
      have e1 : i + hs.length + 2 + (streamOf rs).length
          = i + (streamOf (Record.run g hs t :: rs)).length := by
        simp [streamOf, recordBytes]
        omega
      have e2 : out ++ List.replicate (127 * hs.length + t) (g ^^^ MASK) ++ expandAll rs
          = out ++ expandAll (Record.run g hs t :: rs) := by
        simp [expandAll, recordExpand, xor_mask_of_highByte hg]
      have e3 : (expandAll (Record.run g hs t :: rs)).length
          = (127 * hs.length + t) + (expandAll rs).length := by
        simp [expandAll, recordExpand]
      have hhm : ∀ h ∈ hs, MASK = h &&& MASK := fun h hh => mask_of_highByte (hhs h hh)
      rw [List.length_cons, ← Nat.add_assoc, e3]
      by_cases hint : 127 * hs.length + t ≤ INT_MAX
      · by_cases hfit : out.length + (127 * hs.length + t) ≤ capacity
        · rw [decompressionLoop_run hd' (mask_of_highByte hg) hhm (mask_of_lt t ht) hint hfit,
            ← e1, ← e2]
          have := ih hrs data (i + hs.length + 2) fuel
            (out ++ List.replicate (127 * hs.length + t) (g ^^^ MASK)) rest (drop_record hd')
            (by simp; omega)
          simp only [List.length_append, List.length_replicate] at this
          rcases this with ⟨h1, h2⟩ | ⟨h1, h2⟩ | ⟨h1, h2⟩
          · exact Or.inl ⟨by omega, h2⟩
          · exact Or.inr (Or.inl ⟨by omega, h2⟩)
          · exact Or.inr (Or.inr ⟨by omega, h2⟩)
        · right
          left
          exact ⟨by omega, decompressionLoop_run_overflow hd' (mask_of_highByte hg) hhm
            (mask_of_lt t ht) hint hcap (by omega) _⟩
      · right
        right
        exact ⟨by omega, decompressionLoop_run_intOverflow hd' (mask_of_highByte hg) hhm
          (mask_of_lt t ht) (by omega) _⟩

/-- The three ways `bufferDecompression` can end on a concatenation of complete records. -/
theorem bufferDecompression_streamOf (rs : List Record) (hv : ∀ r ∈ rs, recordValid r = true) :
    ((expandAll rs).length ≤ NEW_BUFFER_SIZE
        ∧ bufferDecompression (streamOf rs) = .ok (expandAll rs))
      ∨ (NEW_BUFFER_SIZE < (expandAll rs).length
        ∧ bufferDecompression (streamOf rs) = .error (.writeOutOfBounds NEW_BUFFER_SIZE))
      ∨ (INT_MAX < (expandAll rs).length
        ∧ bufferDecompression (streamOf rs) = .error .intOverflow) := by
  have hle := length_le_streamOf rs
  have h := decompressionLoop_records NEW_BUFFER_SIZE rs hv (streamOf rs) 0
    ((streamOf rs).length - rs.length + 1) [] [] (by simp) (by simp)
  rw [show (streamOf rs).length - rs.length + 1 + rs.length = (streamOf rs).length + 1 by omega]
    at h
  simp only [List.length_nil, Nat.zero_add, List.nil_append] at h
  rcases h with ⟨h1, h2⟩ | ⟨h1, h2⟩ | ⟨h1, h2⟩
  · left
    refine ⟨h1, ?_⟩
    rw [bufferDecompression, h2, decompressionLoop_stop (by omega)]
  · exact Or.inr (Or.inl ⟨h1, by rw [bufferDecompression, h2]⟩)
  · exact Or.inr (Or.inr ⟨h1, by rw [bufferDecompression, h2]⟩)

theorem bufferDecompression_streamOf_of_fits (rs : List Record)
    (hv : ∀ r ∈ rs, recordValid r = true) (hfit : (expandAll rs).length ≤ NEW_BUFFER_SIZE) :
    bufferDecompression (streamOf rs) = .ok (expandAll rs) := by
  have h8 : NEW_BUFFER_SIZE ≤ INT_MAX := by decide
  rcases bufferDecompression_streamOf rs hv with ⟨_, h2⟩ | ⟨h1, _⟩ | ⟨h1, _⟩
  · exact h2
  · omega
  · omega

theorem bufferDecompression_streamOf_no_read_fault (rs : List Record)
    (hv : ∀ r ∈ rs, recordValid r = true) (i : Nat) :
    bufferDecompression (streamOf rs) ≠ .error (.readOutOfBounds i) := by
  rcases bufferDecompression_streamOf rs hv with ⟨_, h2⟩ | ⟨_, h2⟩ | ⟨_, h2⟩ <;> simp [h2]

/-- A run tag followed by 16909321 bytes `0xFF` and a terminator: the counter `repeat` of the
inner loop would exceed `INT_MAX` at the last addition of 127, before anything is written. -/
theorem bufferDecompression_intOverflow :
    bufferDecompression (0x80 :: (List.replicate 16909321 0xFF ++ [0x00]))
      = .error .intOverflow := by
  have hh : ∀ h ∈ List.replicate 16909321 0xFF, MASK = h &&& MASK := by
    intro h hm
    rw [List.eq_of_mem_replicate hm]
    exact mask_ff
  have hint : INT_MAX < 127 * (List.replicate 16909321 0xFF).length + 0x00 := by
    rw [List.length_replicate]
    decide
  exact decompressionLoop_run_intOverflow (List.drop_zero _) (by decide) hh (by decide) hint _

/-! ## Runs of at most 255 bytes and isolated bytes -/

/-- A run of `N` bytes, for `N` from 2 to 255, is encoded as one run record: the tag
`v ||| 0x80`, then `(N - 1) / 127` bytes `0xFF`, then the terminator
`N - 127 * ((N - 1) / 127)`, which lies between 1 and 127. -/
theorem single_run_record (v N : Nat) (hv : v < 0x80) (h2 : 2 ≤ N) (h255 : N ≤ 255) :
    ∃ r, bufferCompression (List.replicate N v) = .ok r
      ∧ r.2 = 2 + (N - 1) / 127
      ∧ encodedStream r
          = (v ||| 0x80) :: (List.replicate ((N - 1) / 127) 0xFF ++ [N - 127 * ((N - 1) / 127)])
      ∧ 1 ≤ N - 127 * ((N - 1) / 127) ∧ N - 127 * ((N - 1) / 127) ≤ 127
      ∧ v ||| 0x80 = v + 0x80 := by
  obtain ⟨r, hr, hs, hn⟩ := bufferCompression_stream (List.replicate N v)
  rw [encodeList_replicate v N h2 h255] at hs hn
  refine ⟨r, hr, ?_, hs, by omega, by omega, or_mask_of_lt v hv⟩
  rw [hn]
  simp
  omega

/-- A byte with no equal neighbour is copied unchanged between the encoding of the bytes
before it and the encoding of the bytes after it. -/
theorem isolated_byte_is_literal (pre post : List Nat) (v : Nat)
    (hpre : pre.getLast? ≠ some v) (hpost : post.head? ≠ some v) :
    (∃ r rpre rpost, bufferCompression (pre ++ v :: post) = .ok r
        ∧ bufferCompression pre = .ok rpre ∧ bufferCompression post = .ok rpost
        ∧ encodedStream r = encodedStream rpre ++ v :: encodedStream rpost)
      ∧ bufferCompression [v] = .ok ([v], 1) := by
  constructor
  · obtain ⟨r, hr, hs, _⟩ := bufferCompression_stream (pre ++ v :: post)
    obtain ⟨rpre, hrpre, hspre, _⟩ := bufferCompression_stream pre
    obtain ⟨rpost, hrpost, hspost, _⟩ := bufferCompression_stream post
    refine ⟨r, rpre, rpost, hr, hrpre, hrpost, ?_⟩
    rw [hs, hspre, hspost]
    apply encodeList_append_literal v post hpost pre.length pre (Nat.le_refl _)
    intro q hq
    exact hpre (by simp [hq])
  · rw [bufferCompression_eq, encodeList_of_chain [v] (by simp)]
    rfl

/-- On a maximal run of `L` bytes with `L` at most 255 the scanner returns `L`. -/
theorem repeats_contract (data : List Nat) (i L : Nat) (hi : i < data.length)
    (hrun : ∀ k, k < L → data[i + k]? = data[i]?)
    (hmax : i + L < data.length → data[i + L]? ≠ data[i]?) (h255 : L ≤ 255) :
    repeats data data.length i = .ok L ∧ 1 ≤ L ∧ L ≤ data.length - i := by
  obtain ⟨hL, hbound⟩ := run_bounds data i L hi hrun hmax
  refine ⟨?_, hL, by omega⟩
  rw [repeats_eq_mod data i L hi hL hbound hrun hmax, Nat.mod_eq_of_lt (by omega)]

/-! ## The claims -/

/-- C1 (round-trip law for every byte buffer): evaluation at the buffer `[0x85, 0x03]`, which
has no two equal neighbours. The encoder copies both bytes unchanged, the decoder takes
`0x85` for a run tag with count `0x03`, and the round trip returns the three bytes
`[0x05, 0x05, 0x05]` instead of the two bytes of the buffer. -/
theorem roundTrip_high_bit_literal :
    bufferCompression [0x85, 0x03] = .ok ([0x85, 0x03], 2)
      ∧ bufferDecompression (encodedStream ([0x85, 0x03], 2)) = .ok [0x05, 0x05, 0x05]
      ∧ roundTrip [0x85, 0x03] = .ok [0x05, 0x05, 0x05]
      ∧ roundTrip [0x85, 0x03] ≠ .ok [0x85, 0x03] := by
  decide

/-- C2 (round trip of every buffer of bytes below `0x80`): evaluation at the 24 bytes of
`main` (lines 126-128), all below `0x80`. `bufferCompression` leaves a stream of 16 bytes;
`bufferDecompression` writes the first eight decoded bytes into the eight bytes of
`new_buffer` and the ninth at index 8, past the end of the block, so the round trip does not
return the buffer. -/
theorem roundTrip_of_main_buffer :
    [0x03, 0x74, 0x04, 0x04, 0x04, 0x35, 0x35, 0x64, 0x64, 0x64, 0x64, 0x00, 0x00, 0x00, 0x00,
        0x00, 0x56, 0x45, 0x56, 0x56, 0x56, 0x09, 0x09, 0x09].all (fun x => decide (x < 0x80))
        = true
      ∧ bufferCompression [0x03, 0x74, 0x04, 0x04, 0x04, 0x35, 0x35, 0x64, 0x64, 0x64, 0x64,
          0x00, 0x00, 0x00, 0x00, 0x00, 0x56, 0x45, 0x56, 0x56, 0x56, 0x09, 0x09, 0x09]
        = .ok ([0x03, 0x74, 0x84, 0x03, 0xB5, 0x02, 0xE4, 0x04, 0x80, 0x05, 0x56, 0x45, 0xD6,
          0x03, 0x89, 0x03, 0x56, 0x45, 0x56, 0x56, 0x56, 0x09, 0x09, 0x09], 16)
      ∧ roundTrip [0x03, 0x74, 0x04, 0x04, 0x04, 0x35, 0x35, 0x64, 0x64, 0x64, 0x64, 0x00, 0x00,
          0x00, 0x00, 0x00, 0x56, 0x45, 0x56, 0x56, 0x56, 0x09, 0x09, 0x09]
        = .error (.writeOutOfBounds 8) := by
  decide

/-- C3: the buffer `[0x03,0x74,0x04,0x04,0x04,0x35,0x35]` is compressed to the six bytes
`[0x03,0x74,0x84,0x03,0xB5,0x02]`, and decompressing those gives the seven original bytes. -/
theorem end_to_end_example :
    bufferCompression [0x03, 0x74, 0x04, 0x04, 0x04, 0x35, 0x35]
        = .ok ([0x03, 0x74, 0x84, 0x03, 0xB5, 0x02, 0x35], 6)
      ∧ encodedStream ([0x03, 0x74, 0x84, 0x03, 0xB5, 0x02, 0x35], 6)
          = [0x03, 0x74, 0x84, 0x03, 0xB5, 0x02]
      ∧ bufferDecompression [0x03, 0x74, 0x84, 0x03, 0xB5, 0x02]
          = .ok [0x03, 0x74, 0x04, 0x04, 0x04, 0x35, 0x35] := by
  decide

/-- C4 (rejection of a run tag without terminator): evaluation at the stream `[0x80]`. After
the tag the inner loop reads `data_ptr[1]` although `data_size` is 1: the run ends in a read
outside the encoded stream, not in an error the decoder reports. The same happens at
`[0x03, 0x80, 0xFF]`, where the tag is followed by one byte with the high bit set. -/
theorem decode_unterminated_tag :
    bufferDecompression [0x80] = .error (.readOutOfBounds 1)
      ∧ bufferDecompression [0x03, 0x80, 0xFF] = .error (.readOutOfBounds 3) := by
  decide

/-- C5 (a single run of any length gives one run record): evaluation at 256 repeats of
`0x74`. The scanner counts 256 and returns it as a `uint8_t`, that is 0, so the encoder takes
the branch for a byte without repetition: the first byte is copied as a literal and a record
for the other 255 follows. The stream has five bytes and is not the single record
`[0xF4, 0xFF, 0xFF, 0x02]`. -/
theorem single_run_of_256_is_split :
    bufferCompression (List.replicate 256 0x74)
        = .ok ([0x74, 0xF4, 0xFF, 0xFF, 0x01] ++ List.replicate 251 0x74, 5)
      ∧ encodedStream ([0x74, 0xF4, 0xFF, 0xFF, 0x01] ++ List.replicate 251 0x74, 5)
          = [0x74, 0xF4, 0xFF, 0xFF, 0x01]
      ∧ [0x74, 0xF4, 0xFF, 0xFF, 0x01]
          ≠ (0x74 ||| 0x80) :: (List.replicate ((256 - 1) / 127) 0xFF
              ++ [256 - 127 * ((256 - 1) / 127)]) := by
  refine ⟨?_, ?_, by decide⟩
  · rw [bufferCompression_eq, encodeList_replicate_256]
    rfl
  · rfl

/-- C6: for every byte `v` below `0x80`, compressing 127 repeats of `v` gives the two bytes
`[v ||| 0x80, 127]`, and compressing 128 repeats of `v` gives the three bytes
`[v ||| 0x80, 0xFF, 1]`. The tag is the byte `v + 0x80`. -/
theorem run_boundary_layout (v : Nat) (hv : v < 0x80) :
    (∃ r, bufferCompression (List.replicate 127 v) = .ok r ∧ r.2 = 2
        ∧ encodedStream r = [v ||| 0x80, 127])
      ∧ (∃ r, bufferCompression (List.replicate 128 v) = .ok r ∧ r.2 = 3
        ∧ encodedStream r = [v ||| 0x80, 0xFF, 1])
      ∧ v ||| 0x80 = v + 0x80 := by
  refine ⟨?_, ?_, or_mask_of_lt v hv⟩
  · obtain ⟨r, hr, hs, hn⟩ := bufferCompression_stream (List.replicate 127 v)
    rw [encodeList_replicate v 127 (by omega) (by omega)] at hs hn
    exact ⟨r, hr, hn, hs⟩
  · obtain ⟨r, hr, hs, hn⟩ := bufferCompression_stream (List.replicate 128 v)
    rw [encodeList_replicate v 128 (by omega) (by omega)] at hs hn
    exact ⟨r, hr, hn, hs⟩

/-- Witness of C6 at the byte `0x74`. -/
theorem run_boundary_layout_witness :
    0x74 < 0x80
      ∧ (∃ r, bufferCompression (List.replicate 127 0x74) = .ok r ∧ r.2 = 2
          ∧ encodedStream r = [0x74 ||| 0x80, 127])
      ∧ (∃ r, bufferCompression (List.replicate 128 0x74) = .ok r ∧ r.2 = 3
          ∧ encodedStream r = [0x74 ||| 0x80, 0xFF, 1])
      ∧ 0x74 ||| 0x80 = 0x74 + 0x80 :=
  ⟨by decide, run_boundary_layout 0x74 (by decide)⟩

/-- C7: compressing the empty buffer gives the empty buffer and size 0, and decompressing
the empty buffer gives the empty buffer. -/
theorem empty_input :
    bufferCompression [] = .ok ([], 0) ∧ encodedStream ([], 0) = []
      ∧ bufferDecompression [] = .ok [] := by
  decide

/-- C8: for every buffer in which no two adjacent bytes are equal, `bufferCompression`
leaves every byte unchanged and returns the size of the input. -/
theorem literal_only_input (b : List Nat) (h : List.Chain' (fun x y => x ≠ y) b) :
    bufferCompression b = .ok (b, b.length) ∧ encodedStream (b, b.length) = b := by
  refine ⟨?_, by simp [encodedStream]⟩
  rw [bufferCompression_eq, encodeList_of_chain b h]
  simp

/-- Witness of C8 at a buffer of four bytes, one of them with the high bit set. -/
theorem literal_only_input_witness :
    List.Chain' (fun x y => x ≠ y) [0x03, 0x74, 0x90, 0x03]
      ∧ bufferCompression [0x03, 0x74, 0x90, 0x03] = .ok ([0x03, 0x74, 0x90, 0x03], 4)
      ∧ encodedStream ([0x03, 0x74, 0x90, 0x03], 4) = [0x03, 0x74, 0x90, 0x03] :=
  ⟨by simp, literal_only_input [0x03, 0x74, 0x90, 0x03] (by simp)⟩

/-- C9 (round trip of a single byte with the high bit set): evaluation at the buffer
`[0x80]`. The encoder copies the byte unchanged; the decoder takes it for a run tag and reads
`data_ptr[1]`, outside the one-byte stream, so the round trip does not return `[0x80]`. -/
theorem roundTrip_single_high_bit_byte :
    bufferCompression [0x80] = .ok ([0x80], 1)
      ∧ roundTrip [0x80] = .error (.readOutOfBounds 1)
      ∧ roundTrip [0x80] ≠ .ok [0x80] := by
  decide

/-- C10 (a byte with the high bit set is never emitted as a literal): evaluation at the
buffer `[0x90]`. The encoder returns the one byte `0x90` unchanged, a literal whose value is
not below `0x80`, not a two-byte run record. -/
theorem high_bit_byte_is_copied :
    bufferCompression [0x90] = .ok ([0x90], 1)
      ∧ encodedStream ([0x90], 1) = [0x90]
      ∧ (encodedStream ([0x90], 1)).length ≠ 2
      ∧ encodedStream ([0x90], 1) ≠ [0x90 ||| 0x80, 1] := by
  decide

/-- C11 (the scanner returns the length of the maximal run): evaluation at a buffer of 256
bytes `0x74` and start index 0. The run that begins there has length 256 (`runLen` counts the
255 bytes after the first), and `repeats` returns 0, which is neither the length of the run
nor at least 1. -/
theorem repeats_of_run_256 :
    repeats (List.replicate 256 0x74) (List.replicate 256 0x74).length 0 = .ok 0
      ∧ 1 + runLen 0x74 (List.replicate 255 0x74) = 256 := by
  refine ⟨?_, by rw [runLen_replicate]⟩
  have hd : (List.replicate 256 0x74).drop 0 = 0x74 :: List.replicate 255 0x74 := rfl
  rw [repeats_of_drop hd, runLen_replicate]

/-- C12: for every buffer `bufferCompression` returns a result (the fuel of the embedding is
never exhausted and no access is out of bounds); an iteration of the outer loop is the loop
body followed by the rest of the loop, and whenever the body returns, the read index it
returns is at least one more than the one it started from, whatever `repeats` reported. -/
theorem encode_total (data : List Nat) :
    (∃ r, bufferCompression data = .ok r)
      ∧ (∀ (fuel : Nat) (buf : List Nat) (new old : Nat),
          compressionLoop data.length (fuel + 1) buf new old
            = if old < data.length then
                match compressionBody data.length buf new old with
                | .error e => .error e
                | .ok s => compressionLoop data.length fuel s.1 s.2.1 s.2.2
              else .ok (buf, new))
      ∧ (∀ (buf : List Nat) (new old : Nat),
          match compressionBody data.length buf new old with
          | .error _ => True
          | .ok s => old + 1 ≤ s.2.2) := by
  refine ⟨⟨_, bufferCompression_eq data⟩, fun fuel buf new old =>
    compressionLoop_succ data.length fuel buf new old, ?_⟩
  intro buf new old
  cases h : compressionBody data.length buf new old with
  | error e => trivial
  | ok s => exact compressionBody_progress data.length buf new old s h

/-- C13: for every buffer of size `n` the size `bufferCompression` returns is at most `n`
(and, being a natural number, at least 0), and the buffer it leaves still has `n` bytes. -/
theorem compressed_size_le (data : List Nat) :
    ∃ r, bufferCompression data = .ok r ∧ 0 ≤ r.2 ∧ r.2 ≤ data.length
      ∧ r.1.length = data.length := by
  have hle := encodeList_length_le data.length data (Nat.le_refl _)
  refine ⟨_, bufferCompression_eq data, Nat.zero_le _, hle, ?_⟩
  simp
  omega

/-- C14 (expansion of a run record): evaluation at the stream `[0x84, 0x09]`, a tag and the
terminator 9. The `for` loop writes eight bytes `0x04` into `new_buffer` and the ninth at
index 8, past the end of the block; the same happens at `[0xF4, 0xFF, 0x03]`, whose count is
130. A count of 8 still fits. -/
theorem decode_run_record_overflow :
    bufferDecompression [0x84, 0x09] = .error (.writeOutOfBounds 8)
      ∧ bufferDecompression [0xF4, 0xFF, 0x03] = .error (.writeOutOfBounds 8)
      ∧ bufferDecompression [0x84, 0x08] = .ok [0x04, 0x04, 0x04, 0x04, 0x04, 0x04, 0x04, 0x04] := by
  decide

/-- C15 (literal pass-through): evaluation at a stream of nine literals. The ninth is
written at index 8 of `new_buffer`, past the end of the block, so the stream is not returned;
a stream of eight literals is returned unchanged. -/
theorem decode_nine_literals :
    bufferDecompression [1, 2, 3, 4, 5, 6, 7, 8, 9] = .error (.writeOutOfBounds 8)
      ∧ bufferDecompression [1, 2, 3, 4, 5, 6, 7, 8] = .ok [1, 2, 3, 4, 5, 6, 7, 8] := by
  decide

/-- C16 (decoding a concatenation of complete records succeeds): evaluation at the stream
`[0x03, 0x84, 0x08]`, a literal and a run record for eight bytes. Every read is inside the
stream, but the ninth decoded byte is written at index 8 of `new_buffer`, past the end of
the block, so decoding does not succeed. -/
theorem decode_well_formed_overflow :
    [Record.literal 0x03, Record.run 0x84 [] 8].all recordValid = true
      ∧ streamOf [Record.literal 0x03, Record.run 0x84 [] 8] = [0x03, 0x84, 0x08]
      ∧ bufferDecompression (streamOf [Record.literal 0x03, Record.run 0x84 [] 8])
        = .error (.writeOutOfBounds 8) := by
  decide

/-- C17: for every buffer and every start index, inside the buffer or not, `repeats`
returns a result, and its loop, whatever fuel and counter it is started with, never ends in
a read outside the buffer. -/
theorem repeats_in_bounds (data : List Nat) (i : Nat) :
    (∃ r, repeats data data.length i = .ok r)
      ∧ ∀ fuel rep j, repeatsLoop data data.length fuel i rep ≠ .error (.readOutOfBounds j) :=
  ⟨repeats_ok data i, fun fuel rep j => repeatsLoop_no_read_fault data fuel i rep j⟩

/-- C18: for every buffer, (1) at the start of every iteration of the outer loop of
`bufferCompression` the write index is at most the read index and the bytes from the read
index on are still those of the input; (2) these states are the ones the loop goes through;
(3) the first `new_size` bytes the in-place run leaves are the output of the same algorithm
reading from an unmodified copy of the input and writing to a fresh buffer. -/
theorem in_place_encoding_sound (data : List Nat) :
    (∀ k, ∃ s, compressionIterate data.length k (data, 0, 0) = .ok s
        ∧ s.2.1 ≤ s.2.2 ∧ s.2.2 ≤ data.length ∧ s.1.drop s.2.2 = data.drop s.2.2)
      ∧ (∀ k fuel, compressionLoop data.length (fuel + 1 + k) data 0 0
          = match compressionIterate data.length k (data, 0, 0) with
            | .error e => .error e
            | .ok s => compressionLoop data.length (fuel + 1) s.1 s.2.1 s.2.2)
      ∧ ∃ r out, bufferCompression data = .ok r ∧ bufferCompressionCopy data = .ok out
          ∧ encodedStream r = out ∧ r.2 = out.length := by
  refine ⟨?_, fun k fuel => compressionLoop_iterate data.length k fuel (data, 0, 0), ?_⟩
  · intro k
    obtain ⟨s, hs, _, h1, h2, h3⟩ :=
      compressionIterate_invariant data k data 0 0 rfl (Nat.le_refl _) (Nat.zero_le _) rfl
    exact ⟨s, hs, h1, h2, h3⟩
  · obtain ⟨r, hr, hs, hn⟩ := bufferCompression_stream data
    exact ⟨r, encodeList data, hr, bufferCompressionCopy_eq data, hs, hn⟩

/-- C19 (stream concatenation): evaluation at `a = b = [1, 2, 3, 4, 5]`, five literal
records each. Each stream is decoded to itself, but in `a` followed by `b` the ninth byte is
written at index 8 of `new_buffer`, past the end of the block, so the result is not the
decoding of `a` followed by the decoding of `b`. -/
theorem decode_concatenation_overflow :
    [Record.literal 1, Record.literal 2, Record.literal 3, Record.literal 4,
        Record.literal 5].all recordValid = true
      ∧ streamOf [Record.literal 1, Record.literal 2, Record.literal 3, Record.literal 4,
          Record.literal 5] = [1, 2, 3, 4, 5]
      ∧ bufferDecompression [1, 2, 3, 4, 5] = .ok [1, 2, 3, 4, 5]
      ∧ bufferDecompression ([1, 2, 3, 4, 5] ++ [1, 2, 3, 4, 5])
        = .error (.writeOutOfBounds 8) := by
  decide

/-- C20: for every buffer and every start index `i` inside it, if the maximal run of bytes
equal to `data[i]` that begins at `i` has length `L`, then `repeats` returns `L % 256`; when
`L` is 256 it returns 0, and the body of the encoder loop, run at read index `i` with any
write index not above `i`, writes the byte `data[i]` unchanged at the write index and
advances both indices by one. -/
theorem repeats_truncated (data : List Nat) (i L : Nat) (hi : i < data.length)
    (hrun : ∀ k, k < L → data[i + k]? = data[i]?)
    (hmax : i + L < data.length → data[i + L]? ≠ data[i]?) :
    repeats data data.length i = .ok (L % 256)
      ∧ (L = 256 → repeats data data.length i = .ok 0
          ∧ ∀ new, new ≤ i → compressionBody data.length data new i
              = .ok (data.set new (data.getD i 0), new + 1, i + 1)) := by
  obtain ⟨hL, hbound⟩ := run_bounds data i L hi hrun hmax
  have hrep := repeats_eq_mod data i L hi hL hbound hrun hmax
  refine ⟨hrep, ?_⟩
  intro h256
  subst h256
  refine ⟨hrep, ?_⟩
  intro new hnew
  have hd : data.drop i = data[i] :: data.drop (i + 1) := List.drop_eq_getElem_cons hi
  have hbody := compressionBody_overwrite data new i _ _ hnew hd
  have hmod : (1 + runLen data[i] (data.drop (i + 1))) % 256 = 0 := by
    have h1 := repeats_of_drop hd
    rw [hrep] at h1
    injection h1 with h1
    exact h1.symm
  rw [hmod] at hbody
  simp only [Nat.lt_irrefl, Nat.not_lt_zero, if_false] at hbody
  rw [hbody, overwrite_singleton data new _ (by omega)]
  simp [List.getD_eq_getElem?_getD, List.getElem?_eq_getElem hi]

/-- Witness of C20 at a buffer of 256 bytes `0x74`, read from index 0. -/
theorem repeats_truncated_witness :
    0 < (List.replicate 256 0x74).length
      ∧ (∀ k, k < 256 → (List.replicate 256 0x74)[0 + k]? = (List.replicate 256 0x74)[0]?)
      ∧ (0 + 256 < (List.replicate 256 0x74).length
          → (List.replicate 256 0x74)[0 + 256]? ≠ (List.replicate 256 0x74)[0]?)
      ∧ repeats (List.replicate 256 0x74) (List.replicate 256 0x74).length 0 = .ok (256 % 256)
      ∧ (256 = 256 → repeats (List.replicate 256 0x74) (List.replicate 256 0x74).length 0 = .ok 0
          ∧ ∀ new, new ≤ 0 → compressionBody (List.replicate 256 0x74).length
                (List.replicate 256 0x74) new 0
              = .ok ((List.replicate 256 0x74).set new ((List.replicate 256 0x74).getD 0 0),
                  new + 1, 0 + 1)) :=
  have h1 : 0 < (List.replicate 256 0x74).length := by
    rw [List.length_replicate]
    decide
  have h2 : ∀ k, k < 256 → (List.replicate 256 0x74)[0 + k]? = (List.replicate 256 0x74)[0]? := by
    intro k hk
    rw [List.getElem?_replicate, List.getElem?_replicate, if_pos (by omega), if_pos (by omega)]
  have h3 : 0 + 256 < (List.replicate 256 0x74).length
      → (List.replicate 256 0x74)[0 + 256]? ≠ (List.replicate 256 0x74)[0]? := by
    intro h
    rw [List.length_replicate] at h
    omega
  ⟨h1, h2, h3, repeats_truncated (List.replicate 256 0x74) 0 256 h1 h2 h3⟩
